import Mathlib

/- Shallow embedding of the core of nikola/utils.py: the translation-path
resolver `get_translation_candidate` (utils.py:982-1042) and the locale state
manager `LocaleBorg` (utils.py:817-908).

`get_translation_candidate` compiles the configured TRANSLATIONS_PATTERN into a
regular expression:
  pattern.replace('.', '\.').replace('{path}', '(?P<path>.+?)')
         .replace('{ext}', '(?P<ext>[^\./]+)')
         .replace('{lang}', '(?P<lang>l1|l2|...)')
and runs `re.match` (anchored at the start only).  The two documented pattern
shapes, "{path}.{lang}.{ext}" and "{path}.{ext}.{lang}", are modelled by the
type `TPattern`; the compiled regex is embedded as an explicit backtracking
matcher with Python's semantics: `.+?` is non-greedy (shortest path capture
first) and its wildcard refuses newline, `[^\./]+` is greedy, the alternation
tries the configured language codes in dict order and the first alternative
that lets the rest of the pattern match wins.  Language codes are matched
literally, which is faithful whenever they contain no regex metacharacters. -/

namespace NikolaUtils

/-- Characters matched by the regex character class `[^\./]` of the compiled
pattern: anything but a dot or a slash. -/
def isExtChar (c : Char) : Bool := !(c = '.' || c = '/')

/-- Characters matched by the regex wildcard `.` (no DOTALL flag): anything but
a newline. -/
def isDotChar (c : Char) : Bool := !(c = '\n')

/-- Characters that Python's re engine treats as plain literals when a
language code is spliced into the compiled alternation: everything except the
regex metacharacters `. ^ $ * + ? [ ] \ | ( )` and the two braces (written by
code point).  Only for codes made of such characters does matching the code
as a literal string coincide with the compiled regex's behavior. -/
def isRegexLiteral (c : Char) : Bool :=
  !(c = '.' || c = '^' || c = '$' || c = '*' || c = '+' || c = '?' ||
    c = '[' || c = ']' || c = '\\' || c = '|' || c = '(' || c = ')' ||
    c = Char.ofNat 123 || c = Char.ofNat 125)

/-- The two documented shapes of TRANSLATIONS_PATTERN. -/
inductive TPattern where
  | path_lang_ext
  | path_ext_lang
deriving DecidableEq

/-- The configuration dict consumed by get_translation_candidate:
TRANSLATIONS_PATTERN, DEFAULT_LANG, and the keys of TRANSLATIONS in dict
(insertion) order — only the keys matter to the function. -/
structure TConfig where
  TRANSLATIONS_PATTERN : TPattern
  DEFAULT_LANG : String
  TRANSLATIONS : List String
deriving DecidableEq

/-- Greedy match of `[^\./]+` at the front of `s`: the captured run and what
follows it, or none when the run would be empty. -/
def matchExtRun (s : List Char) : Option (List Char × List Char) :=
  let run := s.takeWhile isExtChar
  if run.isEmpty then none else some (run, s.drop run.length)

/-- One alternative `l` of the language alternation, followed by the rest
`\.(?P<ext>[^\./]+)` of the shape-1 regex (nothing after `ext` — the match is
not anchored at the end).  The code is matched as a literal string, which
agrees with the compiled regex exactly for codes free of regex
metacharacters (`isRegexLiteral`); the general theorems assume that through
`langsWFb`. -/
def tryLang1 (l : String) (s : List Char) : Option (String × List Char) :=
  if l.data.isPrefixOf s then
    match s.drop l.data.length with
    | '.' :: rest =>
      match matchExtRun rest with
      | some (run, _) => some (l, run)
      | none => none
    | _ => none
  else none

/-- The alternation `(?P<lang>l1|l2|...)` inside the shape-1 regex: Python
tries the alternatives in order and the first one that lets the tail of the
pattern match wins. -/
def tryAlts1 : List String → List Char → Option (String × List Char)
  | [], _ => none
  | l :: ls, s =>
    match tryLang1 l s with
    | some r => some r
    | none => tryAlts1 ls s

/-- The tail `\.(?P<lang>...)\.(?P<ext>[^\./]+)` of the compiled
"{path}.{lang}.{ext}" regex, matched at the front of `s`. -/
def matchTail1 (alts : List String) (s : List Char) : Option (String × List Char) :=
  match s with
  | '.' :: rest => tryAlts1 alts rest
  | _ => none

/-- `re.match` driver for `(?P<path>.+?)` followed by the shape-1 tail: the
path capture is non-greedy, so the shortest capture whose tail matches wins;
every character it swallows must pass the `.` wildcard (no newline).  `acc`
accumulates the path capture. -/
def scan1 (alts : List String) : List Char → List Char → Option (List Char × String × List Char)
  | _, [] => none
  | acc, c :: rest =>
    if isDotChar c then
      match matchTail1 alts rest with
      | some (l, ext) => some (acc ++ [c], l, ext)
      | none => scan1 alts (acc ++ [c]) rest
    else none

/-- The language alternation when it ends the regex (shape 2): the first
alternative that is a prefix of the remaining input wins — nothing after it
needs to match.  As with `tryLang1`, the code is matched literally, which is
faithful to the compiled regex only for metacharacter-free codes
(`isRegexLiteral`), as `langsWFb` requires. -/
def tryAltsEnd : List String → List Char → Option String
  | [], _ => none
  | l :: ls, s => if l.data.isPrefixOf s then some l else tryAltsEnd ls s

/-- The tail `\.(?P<ext>[^\./]+)\.(?P<lang>...)` of the compiled
"{path}.{ext}.{lang}" regex.  The greedy `[^\./]+` cannot backtrack usefully:
a shorter run would put a non-dot character under the following `\.`. -/
def matchTail2 (alts : List String) (s : List Char) : Option (String × List Char) :=
  match s with
  | '.' :: rest =>
    match matchExtRun rest with
    | some (run, rest2) =>
      match rest2 with
      | '.' :: rest3 =>
        match tryAltsEnd alts rest3 with
        | some l => some (l, run)
        | none => none
      | _ => none
    | none => none
  | _ => none

/-- `re.match` driver for shape 2, same non-greedy path capture as `scan1`. -/
def scan2 (alts : List String) : List Char → List Char → Option (List Char × String × List Char)
  | _, [] => none
  | acc, c :: rest =>
    if isDotChar c then
      match matchTail2 alts rest with
      | some (l, ext) => some (acc ++ [c], l, ext)
      | none => scan2 alts (acc ++ [c]) rest
    else none

/-- `re.match(pattern, path)` of the compiled TRANSLATIONS_PATTERN, returning
the named groups (path, lang, ext), or none when there is no match. -/
def reMatchGroups (cfg : TConfig) (path : String) : Option (List Char × String × List Char) :=
  match cfg.TRANSLATIONS_PATTERN with
  | .path_lang_ext => scan1 cfg.TRANSLATIONS [] path.data
  | .path_ext_lang => scan2 cfg.TRANSLATIONS [] path.data

/-- Python's `all(m.groups())`: every captured group is a non-empty string. -/
def allGroupsNonempty (g : List Char × String × List Char) : Bool :=
  !g.1.isEmpty && !g.2.1.data.isEmpty && !g.2.2.isEmpty

/-- `config['TRANSLATIONS_PATTERN'].format(path=p, lang=lang, ext=e)`. -/
def formatPattern (pat : TPattern) (p lang e : String) : String :=
  match pat with
  | .path_lang_ext => p ++ "." ++ lang ++ "." ++ e
  | .path_ext_lang => p ++ "." ++ e ++ "." ++ lang

/-- `os.path.splitext` (posixpath): split at the last dot that comes after the
last slash, except that a basename consisting entirely of dots up to that dot
carries no extension (".bashrc" has none).  Mirrors genericpath._splitext with
sep = '/', extsep = '.'. -/
def splitext (s : List Char) : List Char × List Char :=
  let r := s.reverse
  let extR := r.takeWhile (fun c => !(c = '.'))
  match r.dropWhile (fun c => !(c = '.')) with
  | [] => (s, [])
  | _ :: preR =>
    if extR.all (fun c => !(c = '/')) then
      if (preR.takeWhile (fun c => !(c = '/'))).any (fun c => !(c = '.')) then
        (preR.reverse, '.' :: extR.reverse)
      else (s, [])
    else (s, [])

/-- The untranslated branch of get_translation_candidate (the final `else`,
utils.py:1035-1042): treat the input as a bare `path.ext`, split off the
extension, drop its leading dot, return the input unchanged for the default
language, otherwise fill the pattern template. -/
def caseB_result (cfg : TConfig) (path lang : String) : String :=
  let pe := splitext path.data
  let p : String := ⟨pe.1⟩
  let e : String := ⟨pe.2.drop 1⟩
  if lang = cfg.DEFAULT_LANG then path
  else formatPattern cfg.TRANSLATIONS_PATTERN p lang e

/-- get_translation_candidate (utils.py:982-1042): compile the pattern, match
the path; on a match with all groups non-empty the path is already translated
(return it unchanged for the captured language, strip the marker for the
default language, re-fill the template otherwise); else fall back to the
untranslated branch. -/
def get_translation_candidate (cfg : TConfig) (path lang : String) : String :=
  match reMatchGroups cfg path with
  | some g =>
    if allGroupsNonempty g then
      if g.2.1 = lang then path
      else if lang = cfg.DEFAULT_LANG then String.mk g.1 ++ "." ++ String.mk g.2.2
      else formatPattern cfg.TRANSLATIONS_PATTERN (String.mk g.1) lang (String.mk g.2.2)
    else caseB_result cfg path lang
  | none => caseB_result cfg path lang

/-- The condition `m and all(m.groups())` deciding the translated branch. -/
def isTranslated (cfg : TConfig) (path : String) : Bool :=
  match reMatchGroups cfg path with
  | some g => allGroupsNonempty g
  | none => false

/-- The doctest configuration with pattern "{path}.{lang}.{ext}". -/
def cfg1 : TConfig := ⟨.path_lang_ext, "en", ["es", "en"]⟩

/-- The doctest configuration with pattern "{path}.{ext}.{lang}". -/
def cfg2 : TConfig := ⟨.path_ext_lang, "en", ["es", "en"]⟩

example : get_translation_candidate cfg1 "*.rst" "es" = "*.es.rst" := by decide
example : get_translation_candidate cfg1 "fancy.post.rst" "es" = "fancy.post.es.rst" := by decide
example : get_translation_candidate cfg1 "*.es.rst" "es" = "*.es.rst" := by decide
example : get_translation_candidate cfg1 "*.es.rst" "en" = "*.rst" := by decide
example : get_translation_candidate cfg1 "cache/posts/fancy.post.es.html" "en" = "cache/posts/fancy.post.html" := by decide
example : get_translation_candidate cfg1 "cache/posts/fancy.post.html" "es" = "cache/posts/fancy.post.es.html" := by decide
example : get_translation_candidate cfg1 "cache/stories/charts.html" "es" = "cache/stories/charts.es.html" := by decide
example : get_translation_candidate cfg1 "cache/stories/charts.html" "en" = "cache/stories/charts.html" := by decide
example : get_translation_candidate cfg2 "*.rst" "es" = "*.rst.es" := by decide
example : get_translation_candidate cfg2 "*.rst.es" "es" = "*.rst.es" := by decide
example : get_translation_candidate cfg2 "*.rst.es" "en" = "*.rst" := by decide
example : get_translation_candidate cfg2 "cache/posts/fancy.post.html.es" "en" = "cache/posts/fancy.post.html" := by decide
example : get_translation_candidate cfg2 "cache/posts/fancy.post.html" "es" = "cache/posts/fancy.post.html.es" := by decide

/- ----------------------------------------------------------------------
LocaleBorg (utils.py:817-908).  Python state that the class touches:
  - class attributes `locales` (dict lang → sanitized locale string),
    `encodings` (dict lang → encoding reported by locale.getlocale), the
    shared instance dict holding `current_lang`, and the `initialized` flag;
  - the process-wide locale set by locale.setlocale(locale.LC_ALL, ...).
The OS/runtime locale facility is an oracle `OS`: `encOf loc` is none when
`locale.setlocale` would reject `loc`, and `some enc` when it succeeds and a
following `locale.getlocale()` reports encoding `enc` (itself possibly None);
`monthName loc n` is the calendar month-name table of the active locale for
months 1..12.  Exceptions propagate while mutations already performed persist,
so every operation returns `Res α`: a value or a Python exception, each paired
with the resulting world. -/

/-- The locale/calendar runtime the class calls into. -/
structure OS where
  encOf : String → Option (Option String)
  monthName : String → Nat → String

/-- The shared mutable state: LocaleBorg class attributes plus the
process-wide locale (none when the process never set one).  The class body
defines none of `locales`/`encodings`/`__shared_state`/`initialized`: they
are only created by reset() (which initialize also calls).  The `initialized`
attribute is therefore three-valued here: `none` while the attribute does not
exist yet (fresh process — reading it raises AttributeError), `some false`
after reset, `some true` after a successful initialize. -/
structure World where
  locales : List (String × String)
  encodings : List (String × Option String)
  current_lang : Option String
  inited : Option Bool
  processLocale : Option String
deriving DecidableEq

/-- The world at process start: no class attribute exists yet. -/
def World.fresh : World :=
  { locales := [], encodings := [], current_lang := none,
    inited := none, processLocale := none }

/-- The Python exceptions these methods can raise. -/
inductive PyErr where
  | assertionError
  | attributeError
  | keyError
  | indexError
  | localeError
  | notInitializedError
deriving DecidableEq

/-- Outcome of a stateful call: a result or a raised exception, with the
world as it stands afterwards. -/
inductive Res (α : Type) where
  | ok : α → World → Res α
  | err : PyErr → World → Res α
deriving DecidableEq

/-- The world a call left behind, whether it returned or raised. -/
def Res.world {α : Type} : Res α → World
  | .ok _ w => w
  | .err _ w => w

/-- The exception a call raised, if any. -/
def Res.errOf {α : Type} : Res α → Option PyErr
  | .ok _ _ => none
  | .err e _ => some e

/-- LocaleBorg.reset (utils.py:863-869): empty both tables, a fresh shared
dict with current_lang None, initialized False — creating these class
attributes when they did not exist yet.  The process locale is not
touched. -/
def LocaleBorg.reset (w : World) : World :=
  { w with locales := [], encodings := [],
           current_lang := none, inited := some false }

/-- The loop body of LocaleBorg.initialize (utils.py:854-857): for each lang
in dict order, `locale.setlocale(locale.LC_ALL, locales[lang])` (raising
locale.Error on an unacceptable identifier, with the earlier iterations'
process-locale changes kept), then `locale.getlocale()` to record the
encoding. -/
def initEncodings (os : OS) : List (String × String) → World → Res (List (String × Option String))
  | [], w => .ok [] w
  | (lang, loc) :: rest, w =>
    match os.encOf loc with
    | none => .err .localeError w
    | some enc =>
      match initEncodings os rest { w with processLocale := some loc } with
      | .ok encs w2 => .ok ((lang, enc) :: encs) w2
      | .err e w2 => .err e w2

/-- LocaleBorg.initialize (utils.py:839-861): assert initial_lang is a key of
`locales` (AssertionError before any mutation otherwise), reset, store the
table, walk it recording each language's encoding — leaving the process locale
at the last language visited — then set current_lang and the initialized
flag. -/
def LocaleBorg.init (os : OS) (locales : List (String × String))
    (initial_lang : String) (w : World) : Res Unit :=
  if (locales.lookup initial_lang).isSome then
    match initEncodings os locales
        { LocaleBorg.reset w with locales := locales } with
    | .ok encs w2 =>
      .ok () { w2 with encodings := encs,
                       current_lang := some initial_lang, inited := some true }
    | .err e w2 => .err e w2
  else .err .assertionError w

/-- LocaleBorg.set_locale (utils.py:876-890), state part (the handle's
initialization check is in `borg_set_locale`): look up `locales[lang]`
(KeyError propagates, deliberately unguarded), set current_lang, activate the
locale process-wide, return ''. -/
def LocaleBorg.set_locale (os : OS) (lang : String) (w : World) : Res String :=
  match w.locales.lookup lang with
  | none => .err .keyError w
  | some locale_n =>
    match os.encOf locale_n with
    | some _ => .ok "" { w with current_lang := some lang,
                                processLocale := some locale_n }
    | none => .err .localeError { w with current_lang := some lang }

/-- `calendar.month_name[month_no]` under active locale `loc`: month 0 is the
empty string, 1..12 are the localized names, larger indices raise
IndexError. -/
def calendarMonthName (os : OS) (loc : String) (n : Nat) : Option String :=
  if n = 0 then some ""
  else if n ≤ 12 then some (os.monthName loc n)
  else none

/-- LocaleBorg.get_month_name (utils.py:892-908), Python-3 branch, state part:
`with calendar.different_locale(self.locales[lang])` saves the current locale,
activates `locales[lang]`, reads `calendar.month_name[month_no]`, and on exit
— normal or exceptional — restores the saved locale; afterwards (only on the
non-exception path: the restore-to-current_lang call is not in a `finally`)
`self.set_locale(self.current_lang)`. -/
def LocaleBorg.get_month_name (os : OS) (month_no : Nat) (lang : String)
    (w : World) : Res String :=
  match w.locales.lookup lang with
  | none => .err .keyError w
  | some loc_n =>
    match os.encOf loc_n with
    | none => .err .localeError w
    | some _ =>
      match calendarMonthName os loc_n month_no with
      | none =>
        .err .indexError { w with processLocale := w.processLocale }
      | some s =>
        match w.current_lang with
        | none => .err .keyError w
        | some c =>
          match LocaleBorg.set_locale os c w with
          | .ok _ w3 => .ok s w3
          | .err e w3 => .err e w3

/-- A LocaleBorg instance: `self.__dict__ = self.__shared_state` makes every
instance an interchangeable view of the one shared state, so the operations
below ignore the handle's identity — that is the Borg pattern. -/
structure Handle where
  id : Nat

/-- `LocaleBorg()` (utils.py:871-874): `if not self.initialized: raise ...`.
Before any reset/initialize has run, the `initialized` attribute does not
exist and the read itself raises AttributeError; after reset it exists and is
False, so the explicit not-initialized Exception is raised; after a
successful initialize a handle onto the shared state is returned. -/
def LocaleBorg.new (n : Nat) (w : World) : Res Handle :=
  match w.inited with
  | none => .err .attributeError w
  | some false => .err .notInitializedError w
  | some true => .ok ⟨n⟩ w

/-- Reading `.current_lang` through an instance: a plain read of the shared
dict. -/
def Handle.read_current_lang (_h : Handle) (w : World) : Res (Option String) :=
  .ok w.current_lang w

/-- Calling `.set_locale(lang)` through an instance. -/
def Handle.call_set_locale (_h : Handle) (os : OS) (lang : String)
    (w : World) : Res String :=
  LocaleBorg.set_locale os lang w

/-- Calling `.get_month_name(month_no, lang)` through an instance. -/
def Handle.call_get_month_name (_h : Handle) (os : OS) (month_no : Nat)
    (lang : String) (w : World) : Res String :=
  LocaleBorg.get_month_name os month_no lang w

/-- `LocaleBorg().current_lang` as the docstring prescribes using the class:
construct a handle (which checks initialization), then read. -/
def borg_current_lang (w : World) : Res (Option String) :=
  match LocaleBorg.new 0 w with
  | .ok h w1 => h.read_current_lang w1
  | .err e w1 => .err e w1

/-- `LocaleBorg().set_locale(lang)`. -/
def borg_set_locale (os : OS) (lang : String) (w : World) : Res String :=
  match LocaleBorg.new 0 w with
  | .ok h w1 => h.call_set_locale os lang w1
  | .err e w1 => .err e w1

/-- `LocaleBorg().get_month_name(month_no, lang)`. -/
def borg_get_month_name (os : OS) (month_no : Nat) (lang : String)
    (w : World) : Res String :=
  match LocaleBorg.new 0 w with
  | .ok h w1 => h.call_get_month_name os month_no lang w1
  | .err e w1 => .err e w1

/-- A concrete runtime for witnesses and counterexamples: it accepts exactly
the two locale identifiers used in the spec's examples. -/
def testOS : OS :=
  { encOf := fun s =>
      if s = "en_US.UTF-8" then some (some "UTF-8")
      else if s = "fr_FR.UTF-8" then some (some "UTF-8")
      else none,
    monthName := fun loc n => toString n ++ "@" ++ loc }

/-- The world after `LocaleBorg.initialize({'en': 'en_US.UTF-8',
'fr': 'fr_FR.UTF-8'}, 'en')` from a fresh process: note the process locale is
the one of the last language visited by the loop, fr, not of the initial
language. -/
def w_init : World :=
  { locales := [("en", "en_US.UTF-8"), ("fr", "fr_FR.UTF-8")],
    encodings := [("en", some "UTF-8"), ("fr", some "UTF-8")],
    current_lang := some "en", inited := some true,
    processLocale := some "fr_FR.UTF-8" }

example :
    LocaleBorg.init testOS [("en", "en_US.UTF-8"), ("fr", "fr_FR.UTF-8")] "en"
      World.fresh = .ok () w_init := by decide

/- ----------------------------------------------------------------------
Lemmas about the compiled-pattern matcher. -/

theorem isExtChar_dot : isExtChar '.' = false := by decide

/-- Anything a language code or an extension run may contain is not a dot. -/
theorem not_dot_of_extChar {c : Char} (h : isExtChar c = true) : ¬ c = '.' := by
  intro hc
  subst hc
  simp [isExtChar] at h

/-- A dot-free list that is a prefix of `xs ++ '.' :: ys` already is a prefix
of `xs`: it cannot reach past the dot. -/
theorem prefix_before_dot :
    ∀ (l xs ys : List Char), (∀ c ∈ l, isExtChar c = true) →
      l <+: xs ++ '.' :: ys → l <+: xs := by
  intro l
  induction l with
  | nil => intro xs ys _ _; exact List.nil_prefix
  | cons c l2 ih =>
    intro xs ys hc hp
    cases xs with
    | nil =>
      rw [List.nil_append, List.cons_prefix_cons] at hp
      exact absurd hp.1 (not_dot_of_extChar (hc c (List.mem_cons_self c l2)))
    | cons x xs2 =>
      rw [List.cons_append, List.cons_prefix_cons] at hp
      exact (List.cons_prefix_cons).mpr
        ⟨hp.1, ih xs2 ys (fun d hd => hc d (List.mem_cons_of_mem c hd)) hp.2⟩

/-- takeWhile over a satisfying block followed by a failing character. -/
theorem takeWhile_append_stop (p : Char → Bool) (d : Char) (t : List Char)
    (hd : p d = false) :
    ∀ (l : List Char), (∀ c ∈ l, p c = true) → (l ++ d :: t).takeWhile p = l := by
  intro l
  induction l with
  | nil =>
    intro _
    simp [List.takeWhile_cons, hd]
  | cons a l2 ih =>
    intro hl
    have ha : p a = true := hl a (List.mem_cons_self a l2)
    simp only [List.cons_append, List.takeWhile_cons, ha]
    rw [ih (fun c hc => hl c (List.mem_cons_of_mem a hc))]
    simp

/-- matchExtRun computed on a full extChar run followed by a dot. -/
theorem matchExtRun_append_stop (ed zs : List Char)
    (hc : ∀ c ∈ ed, isExtChar c = true) (hne : ed ≠ []) :
    matchExtRun (ed ++ '.' :: zs) = some (ed, '.' :: zs) := by
  have htw : (ed ++ '.' :: zs).takeWhile isExtChar = ed :=
    takeWhile_append_stop isExtChar '.' zs isExtChar_dot ed hc
  have hemp : ed.isEmpty = false := by
    cases ed with
    | nil => exact absurd rfl hne
    | cons a l2 => rfl
  simp [matchExtRun, htw, hemp, List.drop_left]

/-- matchExtRun computed on a full extChar run at the end of the input. -/
theorem matchExtRun_all (ed : List Char)
    (hc : ∀ c ∈ ed, isExtChar c = true) (hne : ed ≠ []) :
    matchExtRun ed = some (ed, []) := by
  have htw : ed.takeWhile isExtChar = ed := List.takeWhile_eq_self_iff.mpr hc
  have hemp : ed.isEmpty = false := by
    cases ed with
    | nil => exact absurd rfl hne
    | cons a l2 => rfl
  simp [matchExtRun, htw, hemp, List.drop_length]

/-- A successful matchExtRun decomposes its input, with a non-empty all-extChar
run. -/
theorem matchExtRun_decomp {s run rest : List Char}
    (h : matchExtRun s = some (run, rest)) :
    s = run ++ rest ∧ run ≠ [] ∧ ∀ c ∈ run, isExtChar c = true := by
  have hmem : ∀ c ∈ s.takeWhile isExtChar, isExtChar c = true :=
    fun c hc => List.mem_takeWhile_imp hc
  obtain ⟨t, ht⟩ := List.takeWhile_prefix (l := s) isExtChar
  simp only [matchExtRun] at h
  by_cases he : (s.takeWhile isExtChar).isEmpty = true
  · rw [if_pos he] at h
    cases h
  · rw [if_neg he] at h
    injection h with h2
    rw [Prod.mk.injEq] at h2
    obtain ⟨h3, h4⟩ := h2
    have ht2 : t = rest := by
      have hdl : (s.takeWhile isExtChar ++ t).drop (s.takeWhile isExtChar).length = t :=
        List.drop_left _ _
      rw [ht] at hdl
      rw [h4] at hdl
      exact hdl.symm
    refine ⟨?_, ?_, ?_⟩
    · rw [h3, ht2] at ht
      exact ht.symm
    · intro hnil
      rw [h3, hnil] at he
      simp at he
    · rw [← h3]
      exact hmem

/-- matchExtRun succeeds exactly when the input starts with an extChar. -/
theorem matchExtRun_isSome_iff (s : List Char) :
    (matchExtRun s).isSome = true ↔ ∃ a t, s = a :: t ∧ isExtChar a = true := by
  constructor
  · intro h
    obtain ⟨r, hr⟩ := Option.isSome_iff_exists.mp h
    obtain ⟨run, rest⟩ := r
    obtain ⟨hs, hne, hchar⟩ := matchExtRun_decomp hr
    cases run with
    | nil => exact absurd rfl hne
    | cons a t2 =>
      exact ⟨a, t2 ++ rest, by simpa using hs, hchar a (List.mem_cons_self a t2)⟩
  · rintro ⟨a, t, hs, ha⟩
    subst hs
    simp only [matchExtRun, List.takeWhile_cons, ha]
    simp

/-- One shape-1 alternative succeeds exactly when the input is the code, a
dot, and an extChar-headed remainder. -/
theorem tryLang1_isSome_iff (l : String) (s : List Char) :
    (tryLang1 l s).isSome = true ↔
      ∃ a t, s = l.data ++ '.' :: (a :: t) ∧ isExtChar a = true := by
  constructor
  · intro h
    simp only [tryLang1] at h
    split at h
    · rename_i hp
      obtain ⟨t0, ht0⟩ := List.isPrefixOf_iff_prefix.mp hp
      have hdrop : s.drop l.data.length = t0 := by
        rw [← ht0]
        exact List.drop_left _ _
      rw [hdrop] at h
      split at h
      · rename_i rest heq
        split at h
        · rename_i r run rest2 hm
          obtain ⟨hs2, hne, hchar⟩ := matchExtRun_decomp hm
          cases run with
          | nil => exact absurd rfl hne
          | cons a t2 =>
            refine ⟨a, t2 ++ rest2, ?_, hchar a (List.mem_cons_self a t2)⟩
            rw [← ht0]
            simp [hs2]
        · simp at h
      · simp at h
    · simp at h
  · rintro ⟨a, t, heq, ha⟩
    subst heq
    have hpre : l.data.isPrefixOf (l.data ++ '.' :: (a :: t)) = true :=
      List.isPrefixOf_iff_prefix.mpr (List.prefix_append _ _)
    have hrun : (matchExtRun (a :: t)).isSome = true :=
      (matchExtRun_isSome_iff _).mpr ⟨a, t, rfl, ha⟩
    obtain ⟨r, hr⟩ := Option.isSome_iff_exists.mp hrun
    obtain ⟨run, rest2⟩ := r
    simp [tryLang1, hpre, List.drop_left, hr]

/-- One shape-1 alternative computed at the splice seam. -/
theorem tryLang1_seam (L : String) (ed : List Char)
    (hedc : ∀ c ∈ ed, isExtChar c = true) (hede : ed ≠ []) :
    tryLang1 L (L.data ++ '.' :: ed) = some (L, ed) := by
  have hpre : L.data.isPrefixOf (L.data ++ '.' :: ed) = true :=
    List.isPrefixOf_iff_prefix.mpr (List.prefix_append _ _)
  simp [tryLang1, hpre, List.drop_left, matchExtRun_all ed hedc hede]

/-- A successful shape-1 alternative returns its own code and a non-empty
extension capture. -/
theorem tryLang1_some_inv {l0 l : String} {s e : List Char}
    (h : tryLang1 l0 s = some (l, e)) : l = l0 ∧ e ≠ [] := by
  simp only [tryLang1] at h
  split at h
  · split at h
    · split at h
      · rename_i r run rest2 hm
        injection h with h2
        rw [Prod.mk.injEq] at h2
        obtain ⟨h3, h4⟩ := h2
        obtain ⟨_, hne, _⟩ := matchExtRun_decomp hm
        exact ⟨h3.symm, h4 ▸ hne⟩
      · cases h
    · cases h
  · cases h

/-- The shape-1 alternation succeeds when some alternative does. -/
theorem tryAlts1_isSome_iff : ∀ (alts : List String) (s : List Char),
    (tryAlts1 alts s).isSome = true ↔ ∃ l ∈ alts, (tryLang1 l s).isSome = true := by
  intro alts s
  induction alts with
  | nil => simp [tryAlts1]
  | cons l ls ih =>
    simp only [tryAlts1]
    cases hl : tryLang1 l s with
    | some r =>
      simp only [Option.isSome_some, true_iff]
      exact ⟨l, List.mem_cons_self l ls, by simp [hl]⟩
    | none =>
      rw [ih]
      constructor
      · rintro ⟨x, hx, hxs⟩
        exact ⟨x, List.mem_cons_of_mem l hx, hxs⟩
      · rintro ⟨x, hx, hxs⟩
        rcases List.mem_cons.mp hx with h1 | h2
        · subst h1
          rw [hl] at hxs
          cases hxs
        · exact ⟨x, h2, hxs⟩

/-- The alternation tried at the seam returns the spliced-in language: every
other alternative would need to be a prefix of it or to cross a dot. -/
theorem tryAlts1_seam (L : String) (ed : List Char)
    (hedc : ∀ c ∈ ed, isExtChar c = true) (hede : ed ≠ []) :
    ∀ (alts : List String), L ∈ alts →
      (∀ a ∈ alts, ∀ c ∈ a.data, isExtChar c = true) →
      (∀ a ∈ alts, ¬ a = L → ¬ a.data <+: L.data) →
      tryAlts1 alts (L.data ++ '.' :: ed) = some (L, ed) := by
  intro alts
  induction alts with
  | nil => intro h; cases h
  | cons l ls ih =>
    intro hL hchars hpf
    by_cases hl : l = L
    · subst hl
      simp [tryAlts1, tryLang1_seam l ed hedc hede]
    · have hnp : ¬ (l.data.isPrefixOf (L.data ++ '.' :: ed) = true) := by
        intro hp
        have hp2 : l.data <+: L.data ++ '.' :: ed := List.isPrefixOf_iff_prefix.mp hp
        have hp3 : l.data <+: L.data :=
          prefix_before_dot l.data L.data ed (hchars l (List.mem_cons_self l ls)) hp2
        exact hpf l (List.mem_cons_self l ls) hl hp3
      have hnone : tryLang1 l (L.data ++ '.' :: ed) = none := by
        simp only [tryLang1]
        rw [if_neg hnp]
      simp only [tryAlts1, hnone]
      refine ih ?_ ?_ ?_
      · rcases List.mem_cons.mp hL with h1 | h2
        · exact absurd h1.symm hl
        · exact h2
      · intro a ha
        exact hchars a (List.mem_cons_of_mem l ha)
      · intro a ha
        exact hpf a (List.mem_cons_of_mem l ha)

/-- The end-of-pattern alternation succeeds when some code is a prefix. -/
theorem tryAltsEnd_isSome_iff : ∀ (alts : List String) (s : List Char),
    (tryAltsEnd alts s).isSome = true ↔ ∃ l ∈ alts, l.data.isPrefixOf s = true := by
  intro alts s
  induction alts with
  | nil => simp [tryAltsEnd]
  | cons l ls ih =>
    simp only [tryAltsEnd]
    by_cases hp : l.data.isPrefixOf s = true
    · rw [if_pos hp]
      simp only [Option.isSome_some, true_iff]
      exact ⟨l, List.mem_cons_self l ls, hp⟩
    · rw [if_neg hp, ih]
      constructor
      · rintro ⟨x, hx, hxs⟩
        exact ⟨x, List.mem_cons_of_mem l hx, hxs⟩
      · rintro ⟨x, hx, hxs⟩
        rcases List.mem_cons.mp hx with h1 | h2
        · subst h1
          exact absurd hxs hp
        · exact ⟨x, h2, hxs⟩

/-- A successful end-of-pattern alternation returns a configured code. -/
theorem tryAltsEnd_some_mem : ∀ (alts : List String) (s : List Char) (l : String),
    tryAltsEnd alts s = some l → l ∈ alts := by
  intro alts s l
  induction alts with
  | nil => intro h; cases h
  | cons x ls ih =>
    intro h
    simp only [tryAltsEnd] at h
    split at h
    · injection h with h2
      exact h2 ▸ List.mem_cons_self x ls
    · exact List.mem_cons_of_mem x (ih h)

/-- The end-of-pattern alternation applied to exactly one of its codes
returns that code when no configured code is a proper prefix of it. -/
theorem tryAltsEnd_seam (L : String) :
    ∀ (alts : List String), L ∈ alts →
      (∀ a ∈ alts, ¬ a = L → ¬ a.data <+: L.data) →
      tryAltsEnd alts L.data = some L := by
  intro alts
  induction alts with
  | nil => intro h; cases h
  | cons l ls ih =>
    intro hL hpf
    by_cases hl : l = L
    · subst hl
      have hp : l.data.isPrefixOf l.data = true :=
        List.isPrefixOf_iff_prefix.mpr (List.prefix_refl _)
      simp [tryAltsEnd, hp]
    · have hnp : ¬ (l.data.isPrefixOf L.data = true) := by
        intro hp
        exact hpf l (List.mem_cons_self l ls) hl (List.isPrefixOf_iff_prefix.mp hp)
      simp only [tryAltsEnd]
      rw [if_neg hnp]
      refine ih ?_ ?_
      · rcases List.mem_cons.mp hL with h1 | h2
        · exact absurd h1.symm hl
        · exact h2
      · intro a ha
        exact hpf a (List.mem_cons_of_mem l ha)

/-- Both compiled tails require a leading dot. -/
theorem matchTail1_cons_ne (alts : List String) (d : Char) (rest : List Char)
    (hd : ¬ d = '.') : matchTail1 alts (d :: rest) = none := by
  simp only [matchTail1]
  split
  · rename_i heq
    injection heq with h1 h2
    exact absurd h1 hd
  · rfl

theorem matchTail2_cons_ne (alts : List String) (d : Char) (rest : List Char)
    (hd : ¬ d = '.') : matchTail2 alts (d :: rest) = none := by
  simp only [matchTail2]
  split
  · rename_i heq
    injection heq with h1 h2
    exact absurd h1 hd
  · rfl

/-- Shape-1 tail at the splice seam. -/
theorem matchTail1_seam (L : String) (ed : List Char) (alts : List String)
    (hedc : ∀ c ∈ ed, isExtChar c = true) (hede : ed ≠ [])
    (hL : L ∈ alts)
    (hchars : ∀ a ∈ alts, ∀ c ∈ a.data, isExtChar c = true)
    (hpf : ∀ a ∈ alts, ¬ a = L → ¬ a.data <+: L.data) :
    matchTail1 alts ('.' :: (L.data ++ '.' :: ed)) = some (L, ed) := by
  simp only [matchTail1]
  exact tryAlts1_seam L ed hedc hede alts hL hchars hpf

/-- Shape-2 tail at the splice seam. -/
theorem matchTail2_seam (L : String) (ed : List Char) (alts : List String)
    (hedc : ∀ c ∈ ed, isExtChar c = true) (hede : ed ≠ [])
    (hL : L ∈ alts)
    (hpf : ∀ a ∈ alts, ¬ a = L → ¬ a.data <+: L.data) :
    matchTail2 alts ('.' :: (ed ++ '.' :: L.data)) = some (L, ed) := by
  simp only [matchTail2, matchExtRun_append_stop ed L.data hedc hede,
    tryAltsEnd_seam L alts hL hpf]

/-- Success of the shape-1 tail, characterized. -/
theorem matchTail1_isSome_iff (alts : List String) (s : List Char) :
    (matchTail1 alts s).isSome = true ↔
      ∃ u, s = '.' :: u ∧ (tryAlts1 alts u).isSome = true := by
  cases s with
  | nil => simp [matchTail1]
  | cons d rest =>
    by_cases hd : d = '.'
    · subst hd
      simp only [matchTail1]
      constructor
      · intro h
        exact ⟨rest, rfl, h⟩
      · rintro ⟨u, hu, h⟩
        injection hu with h1 h2
        exact h2 ▸ h
    · rw [matchTail1_cons_ne alts d rest hd]
      constructor
      · intro h
        simp at h
      · rintro ⟨u, hu, h⟩
        injection hu with h1 h2
        exact absurd h1 hd

/-- Success of the shape-2 tail, characterized. -/
theorem matchTail2_isSome_iff (alts : List String) (s : List Char) :
    (matchTail2 alts s).isSome = true ↔
      ∃ run rest3, s = '.' :: (run ++ '.' :: rest3) ∧ run ≠ [] ∧
        (∀ c ∈ run, isExtChar c = true) ∧ (tryAltsEnd alts rest3).isSome = true := by
  constructor
  · intro h
    simp only [matchTail2] at h
    split at h
    · rename_i rest
      split at h
      · rename_i r run rest2 hm
        obtain ⟨hs2, hne, hchar⟩ := matchExtRun_decomp hm
        split at h
        · rename_i rest3
          split at h
          · rename_i l hl
            exact ⟨run, rest3, by rw [hs2], hne, hchar, by simp [hl]⟩
          · cases h
        · cases h
      · cases h
    · cases h
  · rintro ⟨run, rest3, hs, hne, hchar, hend⟩
    subst hs
    obtain ⟨l, hl⟩ := Option.isSome_iff_exists.mp hend
    simp [matchTail2, matchExtRun_append_stop run rest3 hchar hne, hl]

/-- A successful shape-1 alternation returns a configured language and a
non-empty extension capture. -/
theorem tryAlts1_some_inv : ∀ (alts : List String) (s : List Char) (l : String)
    (e : List Char), tryAlts1 alts s = some (l, e) → l ∈ alts ∧ e ≠ [] := by
  intro alts
  induction alts with
  | nil => intro s l e h; cases h
  | cons x ls ih =>
    intro s l e h
    simp only [tryAlts1] at h
    split at h
    · rename_i r hx
      injection h with h2
      subst h2
      obtain ⟨h3, h4⟩ := tryLang1_some_inv hx
      refine ⟨?_, h4⟩
      rw [h3]
      exact List.mem_cons_self x ls
    · obtain ⟨h3, h4⟩ := ih s l e h
      exact ⟨List.mem_cons_of_mem x h3, h4⟩

/-- Successful tails return a configured language and non-empty extension. -/
theorem matchTail1_some_inv {alts : List String} {s : List Char} {l : String}
    {e : List Char} (h : matchTail1 alts s = some (l, e)) : l ∈ alts ∧ e ≠ [] := by
  simp only [matchTail1] at h
  split at h
  · exact tryAlts1_some_inv _ _ _ _ h
  · cases h

theorem matchTail2_some_inv {alts : List String} {s : List Char} {l : String}
    {e : List Char} (h : matchTail2 alts s = some (l, e)) : l ∈ alts ∧ e ≠ [] := by
  simp only [matchTail2] at h
  split at h
  · split at h
    · rename_i r run rest2 hm
      obtain ⟨_, hne, _⟩ := matchExtRun_decomp hm
      split at h
      · split at h
        · rename_i l2 hl2
          injection h with h2
          rw [Prod.mk.injEq] at h2
          obtain ⟨h3, h4⟩ := h2
          exact ⟨h3 ▸ tryAltsEnd_some_mem _ _ _ hl2, h4 ▸ hne⟩
        · cases h
      · cases h
    · cases h
  · cases h

/-- If the shape-1 tail fails on `s ++ '.' :: ed`, it still fails after the
translated segment is spliced in before the extension: any match of the longer
input would already have matched the shorter one. -/
theorem matchTail1_none_preserved (alts : List String) (L : String) (s ed : List Char)
    (hchars : ∀ a ∈ alts, ∀ c ∈ a.data, isExtChar c = true)
    (hedc : ∀ c ∈ ed, isExtChar c = true) (hede : ed ≠ [])
    (hs : s ≠ [])
    (h : matchTail1 alts (s ++ '.' :: ed) = none) :
    matchTail1 alts (s ++ '.' :: (L.data ++ '.' :: ed)) = none := by
  cases s with
  | nil => exact absurd rfl hs
  | cons d s2 =>
    by_cases hd : d = '.'
    · subst hd
      simp only [List.cons_append, matchTail1] at h ⊢
      cases hlong : tryAlts1 alts (s2 ++ '.' :: (L.data ++ '.' :: ed)) with
      | none => rfl
      | some r =>
        exfalso
        have hlsome : (tryAlts1 alts (s2 ++ '.' :: (L.data ++ '.' :: ed))).isSome = true := by
          rw [hlong]
          rfl
        obtain ⟨l, hlmem, hlsucc⟩ := (tryAlts1_isSome_iff _ _).mp hlsome
        obtain ⟨a, t, heq, ha⟩ := (tryLang1_isSome_iff _ _).mp hlsucc
        have hldata : ∀ c ∈ l.data, isExtChar c = true := hchars l hlmem
        have hpre : l.data <+: s2 := by
          apply prefix_before_dot l.data s2 (L.data ++ '.' :: ed) hldata
          exact ⟨'.' :: (a :: t), heq.symm⟩
        obtain ⟨v, hv⟩ := hpre
        have hcan0 : l.data ++ (v ++ '.' :: (L.data ++ '.' :: ed)) =
            l.data ++ '.' :: (a :: t) := by
          rw [← List.append_assoc, hv]
          exact heq
        have hcan := List.append_cancel_left hcan0
        have hshort : (tryAlts1 alts (s2 ++ '.' :: ed)).isSome = true := by
          apply (tryAlts1_isSome_iff _ _).mpr
          refine ⟨l, hlmem, (tryLang1_isSome_iff _ _).mpr ?_⟩
          cases v with
          | nil =>
            cases ed with
            | nil => exact absurd rfl hede
            | cons e0 et =>
              refine ⟨e0, et, ?_, hedc e0 (List.mem_cons_self e0 et)⟩
              rw [← hv]
              simp
          | cons d2 v2 =>
            injection hcan with hc1 hc2
            subst hc1
            cases v2 with
            | nil =>
              injection hc2 with hc3 hc4
              rw [← hc3] at ha
              simp [isExtChar] at ha
            | cons a2 v3 =>
              injection hc2 with hc3 hc4
              subst hc3
              refine ⟨a2, v3 ++ '.' :: ed, ?_, ha⟩
              rw [← hv]
              simp
        rw [h] at hshort
        cases hshort
    · rw [List.cons_append, matchTail1_cons_ne alts d _ hd]

/-- The shape-2 analogue of the preservation lemma. -/
theorem matchTail2_none_preserved (alts : List String) (L : String) (s ed : List Char)
    (hchars : ∀ a ∈ alts, ∀ c ∈ a.data, isExtChar c = true)
    (hs : s ≠ [])
    (h : matchTail2 alts (s ++ '.' :: ed) = none) :
    matchTail2 alts (s ++ '.' :: (ed ++ '.' :: L.data)) = none := by
  cases s with
  | nil => exact absurd rfl hs
  | cons d s2 =>
    by_cases hd : d = '.'
    · subst hd
      cases hlong : matchTail2 alts (('.' :: s2) ++ '.' :: (ed ++ '.' :: L.data)) with
      | none => rfl
      | some r =>
        exfalso
        have hlsome : (matchTail2 alts (('.' :: s2) ++ '.' :: (ed ++ '.' :: L.data))).isSome = true := by
          rw [hlong]
          rfl
        obtain ⟨run, rest3, heq, hrne, hrchars, hend⟩ := (matchTail2_isSome_iff _ _).mp hlsome
        rw [List.cons_append] at heq
        injection heq with heq1 heq2
        -- heq2 : s2 ++ '.' :: (ed ++ '.' :: L.data) = run ++ '.' :: rest3
        have hpre : run <+: s2 := by
          apply prefix_before_dot run s2 (ed ++ '.' :: L.data) hrchars
          exact ⟨'.' :: rest3, heq2.symm⟩
        obtain ⟨v, hv⟩ := hpre
        have hcan0 : run ++ (v ++ '.' :: (ed ++ '.' :: L.data)) =
            run ++ '.' :: rest3 := by
          rw [← List.append_assoc, hv]
          exact heq2
        have hcan := List.append_cancel_left hcan0
        obtain ⟨l, hlmem, hlpre⟩ := (tryAltsEnd_isSome_iff _ _).mp hend
        have hldata : ∀ c ∈ l.data, isExtChar c = true := hchars l hlmem
        have hshort : (matchTail2 alts (('.' :: s2) ++ '.' :: ed)).isSome = true := by
          apply (matchTail2_isSome_iff _ _).mpr
          cases v with
          | nil =>
            -- rest3 = ed ++ '.' :: L.data, s2 = run
            injection hcan with hc1 hc2
            have hlpre2 : l.data <+: ed := by
              apply prefix_before_dot l.data ed L.data hldata
              rw [hc2]
              exact List.isPrefixOf_iff_prefix.mp hlpre
            refine ⟨run, ed, ?_, hrne, hrchars, ?_⟩
            · rw [← hv]
              simp
            · exact (tryAltsEnd_isSome_iff _ _).mpr
                ⟨l, hlmem, List.isPrefixOf_iff_prefix.mpr hlpre2⟩
          | cons d2 v2 =>
            injection hcan with hc1 hc2
            subst hc1
            -- rest3 = v2 ++ '.' :: (ed ++ '.' :: L.data)
            have hc2b : v2 ++ '.' :: (ed ++ '.' :: L.data) = rest3 := hc2
            have hlpre2 : l.data <+: v2 := by
              apply prefix_before_dot l.data v2 (ed ++ '.' :: L.data) hldata
              rw [hc2b]
              exact List.isPrefixOf_iff_prefix.mp hlpre
            refine ⟨run, v2 ++ '.' :: ed, ?_, hrne, hrchars, ?_⟩
            · rw [← hv]
              simp
            · refine (tryAltsEnd_isSome_iff _ _).mpr ⟨l, hlmem, ?_⟩
              exact List.isPrefixOf_iff_prefix.mpr
                (hlpre2.trans (List.prefix_append v2 ('.' :: ed)))
        rw [h] at hshort
        cases hshort
    · rw [List.cons_append, matchTail2_cons_ne alts d _ hd]

/-- Controlled one-step unfolding of the shape-1 scan. -/
theorem scan1_cons_eq (alts : List String) (acc : List Char) (c : Char)
    (s : List Char) (hdc : isDotChar c = true) :
    scan1 alts acc (c :: s) =
      match matchTail1 alts s with
      | some (l, ext) => some (acc ++ [c], l, ext)
      | none => scan1 alts (acc ++ [c]) s := by
  simp only [scan1, hdc, if_true]

theorem scan2_cons_eq (alts : List String) (acc : List Char) (c : Char)
    (s : List Char) (hdc : isDotChar c = true) :
    scan2 alts acc (c :: s) =
      match matchTail2 alts s with
      | some (l, ext) => some (acc ++ [c], l, ext)
      | none => scan2 alts (acc ++ [c]) s := by
  simp only [scan2, hdc, if_true]

/-- Whether the scan fails does not depend on the accumulated capture. -/
theorem scan1_none_shift (alts : List String) :
    ∀ (s acc acc2 : List Char), scan1 alts acc s = none → scan1 alts acc2 s = none := by
  intro s
  induction s with
  | nil =>
    intro acc acc2 _
    rfl
  | cons c rest ih =>
    intro acc acc2 h
    by_cases hdc : isDotChar c = true
    · rw [scan1_cons_eq alts acc c rest hdc] at h
      rw [scan1_cons_eq alts acc2 c rest hdc]
      cases hm : matchTail1 alts rest with
      | some r =>
        rw [hm] at h
        obtain ⟨l, e⟩ := r
        cases h
      | none =>
        rw [hm] at h
        exact ih (acc ++ [c]) (acc2 ++ [c]) h
    · have hdf : isDotChar c = false := by
        cases hv : isDotChar c
        · rfl
        · exact absurd hv hdc
      simp [scan1, hdf]

theorem scan2_none_shift (alts : List String) :
    ∀ (s acc acc2 : List Char), scan2 alts acc s = none → scan2 alts acc2 s = none := by
  intro s
  induction s with
  | nil =>
    intro acc acc2 _
    rfl
  | cons c rest ih =>
    intro acc acc2 h
    by_cases hdc : isDotChar c = true
    · rw [scan2_cons_eq alts acc c rest hdc] at h
      rw [scan2_cons_eq alts acc2 c rest hdc]
      cases hm : matchTail2 alts rest with
      | some r =>
        rw [hm] at h
        obtain ⟨l, e⟩ := r
        cases h
      | none =>
        rw [hm] at h
        exact ih (acc ++ [c]) (acc2 ++ [c]) h
    · have hdf : isDotChar c = false := by
        cases hv : isDotChar c
        · rfl
        · exact absurd hv hdc
      simp [scan2, hdf]

/-- THE key lemma for the round-trip law, shape 1: if the bare `stem.ext` has
no match at all, then splicing `lang.` in front of the extension produces an
input whose one and only (shortest-path-capture) match captures exactly
(stem, lang, ext). -/
theorem scan1_splice (alts : List String) (L : String) (ed : List Char)
    (hchars : ∀ a ∈ alts, ∀ c ∈ a.data, isExtChar c = true)
    (hedc : ∀ c ∈ ed, isExtChar c = true) (hede : ed ≠ [])
    (hL : L ∈ alts)
    (hpf : ∀ a ∈ alts, ¬ a = L → ¬ a.data <+: L.data) :
    ∀ (stem acc1 acc2 : List Char), stem ≠ [] → (∀ c ∈ stem, ¬ c = '\n') →
      scan1 alts acc1 (stem ++ '.' :: ed) = none →
      scan1 alts acc2 (stem ++ '.' :: (L.data ++ '.' :: ed)) =
        some (acc2 ++ stem, L, ed) := by
  intro stem
  induction stem with
  | nil =>
    intro acc1 acc2 hne
    exact absurd rfl hne
  | cons c stem2 ih =>
    intro acc1 acc2 _ hnl hnone
    have hdc : isDotChar c = true := by
      simp only [isDotChar, Bool.not_eq_true']
      exact decide_eq_false (hnl c (List.mem_cons_self c stem2))
    rw [List.cons_append] at hnone
    rw [List.cons_append, scan1_cons_eq alts acc2 c _ hdc]
    cases stem2 with
    | nil =>
      rw [List.nil_append, matchTail1_seam L ed alts hedc hede hL hchars hpf]
    | cons c2 stem3 =>
      rw [scan1_cons_eq alts acc1 c _ hdc] at hnone
      have htail_short : matchTail1 alts ((c2 :: stem3) ++ '.' :: ed) = none := by
        cases hmt : matchTail1 alts ((c2 :: stem3) ++ '.' :: ed) with
        | none => rfl
        | some r =>
          rw [hmt] at hnone
          obtain ⟨l2, e2⟩ := r
          cases hnone
      rw [htail_short] at hnone
      have htail_long :
          matchTail1 alts ((c2 :: stem3) ++ '.' :: (L.data ++ '.' :: ed)) = none :=
        matchTail1_none_preserved alts L (c2 :: stem3) ed hchars hedc hede
          (by simp) htail_short
      rw [htail_long]
      have hrec := ih (acc1 ++ [c]) (acc2 ++ [c]) (by simp)
        (fun d hd => hnl d (List.mem_cons_of_mem c hd)) hnone
      rw [hrec]
      simp

/-- THE key lemma for the round-trip law, shape 2. -/
theorem scan2_splice (alts : List String) (L : String) (ed : List Char)
    (hchars : ∀ a ∈ alts, ∀ c ∈ a.data, isExtChar c = true)
    (hedc : ∀ c ∈ ed, isExtChar c = true) (hede : ed ≠ [])
    (hL : L ∈ alts)
    (hpf : ∀ a ∈ alts, ¬ a = L → ¬ a.data <+: L.data) :
    ∀ (stem acc1 acc2 : List Char), stem ≠ [] → (∀ c ∈ stem, ¬ c = '\n') →
      scan2 alts acc1 (stem ++ '.' :: ed) = none →
      scan2 alts acc2 (stem ++ '.' :: (ed ++ '.' :: L.data)) =
        some (acc2 ++ stem, L, ed) := by
  intro stem
  induction stem with
  | nil =>
    intro acc1 acc2 hne
    exact absurd rfl hne
  | cons c stem2 ih =>
    intro acc1 acc2 _ hnl hnone
    have hdc : isDotChar c = true := by
      simp only [isDotChar, Bool.not_eq_true']
      exact decide_eq_false (hnl c (List.mem_cons_self c stem2))
    rw [List.cons_append] at hnone
    rw [List.cons_append, scan2_cons_eq alts acc2 c _ hdc]
    cases stem2 with
    | nil =>
      rw [List.nil_append, matchTail2_seam L ed alts hedc hede hL hpf]
    | cons c2 stem3 =>
      rw [scan2_cons_eq alts acc1 c _ hdc] at hnone
      have htail_short : matchTail2 alts ((c2 :: stem3) ++ '.' :: ed) = none := by
        cases hmt : matchTail2 alts ((c2 :: stem3) ++ '.' :: ed) with
        | none => rfl
        | some r =>
          rw [hmt] at hnone
          obtain ⟨l2, e2⟩ := r
          cases hnone
      rw [htail_short] at hnone
      have htail_long :
          matchTail2 alts ((c2 :: stem3) ++ '.' :: (ed ++ '.' :: L.data)) = none :=
        matchTail2_none_preserved alts L (c2 :: stem3) ed hchars (by simp) htail_short
      rw [htail_long]
      have hrec := ih (acc1 ++ [c]) (acc2 ++ [c]) (by simp)
        (fun d hd => hnl d (List.mem_cons_of_mem c hd)) hnone
      rw [hrec]
      simp

/-- Any successful scan yields a configured language, a non-empty extension
capture and a non-empty path capture extending the accumulator. -/
theorem scan1_some_inv (alts : List String) :
    ∀ (s acc p : List Char) (l : String) (e : List Char),
      scan1 alts acc s = some (p, l, e) →
      l ∈ alts ∧ e ≠ [] ∧ ∃ q, ¬ q = [] ∧ p = acc ++ q := by
  intro s
  induction s with
  | nil =>
    intro acc p l e h
    cases h
  | cons c rest ih =>
    intro acc p l e h
    by_cases hdc : isDotChar c = true
    · rw [scan1_cons_eq alts acc c rest hdc] at h
      cases hm : matchTail1 alts rest with
      | some r =>
        rw [hm] at h
        obtain ⟨l2, e2⟩ := r
        injection h with h2
        rw [Prod.mk.injEq] at h2
        obtain ⟨h3, h4⟩ := h2
        rw [Prod.mk.injEq] at h4
        obtain ⟨h5, h6⟩ := h4
        obtain ⟨hmem, hne⟩ := matchTail1_some_inv hm
        exact ⟨h5 ▸ hmem, h6 ▸ hne, [c], by simp, h3.symm⟩
      | none =>
        rw [hm] at h
        obtain ⟨hmem, hne, q, hq, hpq⟩ := ih (acc ++ [c]) p l e h
        refine ⟨hmem, hne, c :: q, by simp, ?_⟩
        rw [hpq]
        simp
    · have hdf : isDotChar c = false := by
        cases hv : isDotChar c
        · rfl
        · exact absurd hv hdc
      simp [scan1, hdf] at h

theorem scan2_some_inv (alts : List String) :
    ∀ (s acc p : List Char) (l : String) (e : List Char),
      scan2 alts acc s = some (p, l, e) →
      l ∈ alts ∧ e ≠ [] ∧ ∃ q, ¬ q = [] ∧ p = acc ++ q := by
  intro s
  induction s with
  | nil =>
    intro acc p l e h
    cases h
  | cons c rest ih =>
    intro acc p l e h
    by_cases hdc : isDotChar c = true
    · rw [scan2_cons_eq alts acc c rest hdc] at h
      cases hm : matchTail2 alts rest with
      | some r =>
        rw [hm] at h
        obtain ⟨l2, e2⟩ := r
        injection h with h2
        rw [Prod.mk.injEq] at h2
        obtain ⟨h3, h4⟩ := h2
        rw [Prod.mk.injEq] at h4
        obtain ⟨h5, h6⟩ := h4
        obtain ⟨hmem, hne⟩ := matchTail2_some_inv hm
        exact ⟨h5 ▸ hmem, h6 ▸ hne, [c], by simp, h3.symm⟩
      | none =>
        rw [hm] at h
        obtain ⟨hmem, hne, q, hq, hpq⟩ := ih (acc ++ [c]) p l e h
        refine ⟨hmem, hne, c :: q, by simp, ?_⟩
        rw [hpq]
        simp
    · have hdf : isDotChar c = false := by
        cases hv : isDotChar c
        · rfl
        · exact absurd hv hdc
      simp [scan2, hdf] at h

/-- A dropWhile result is empty or starts with a character failing the
predicate. -/
theorem dropWhile_head_not (p : Char → Bool) :
    ∀ (l : List Char),
      l.dropWhile p = [] ∨ ∃ h t, l.dropWhile p = h :: t ∧ p h = false := by
  intro l
  induction l with
  | nil => exact Or.inl rfl
  | cons a l2 ih =>
    by_cases ha : p a = true
    · rw [List.dropWhile_cons, if_pos ha]
      exact ih
    · have haf : p a = false := by
        cases hv : p a
        · rfl
        · exact absurd hv ha
      rw [List.dropWhile_cons, if_neg ha]
      exact Or.inr ⟨a, l2, rfl, haf⟩

/-- When splitext reports a dot-led extension: the input is `stem ++ ext`, the
extension body has neither dot nor slash, and the stem is non-empty. -/
theorem splitext_recover {s a e : List Char}
    (h : splitext s = (a, '.' :: e)) :
    s = a ++ '.' :: e ∧ (∀ c ∈ e, isExtChar c = true) ∧ a ≠ [] := by
  simp only [splitext] at h
  split at h
  · injection h with h1 h2
    cases h2
  · rename_i head preR hdw
    have hd : head = '.' := by
      rcases dropWhile_head_not (fun c => !(c = '.')) s.reverse with hn | ⟨d, t, hdn, hdq⟩
      · rw [hn] at hdw
        cases hdw
      · rw [hdn] at hdw
        injection hdw with hh ht
        rw [hh] at hdq
        simp only [Bool.not_eq_false'] at hdq
        exact of_decide_eq_true hdq
    subst hd
    split at h
    · rename_i hall
      split at h
      · rename_i hany
        injection h with h1 h2
        injection h2 with h3 h4
        refine ⟨?_, ?_, ?_⟩
        · have hsplit : s.reverse.takeWhile (fun c => !(c = '.')) ++
              s.reverse.dropWhile (fun c => !(c = '.')) = s.reverse :=
            List.takeWhile_append_dropWhile _ _
          rw [hdw] at hsplit
          have hs2 : s = ('.' :: preR).reverse ++
              (s.reverse.takeWhile fun c => !(c = '.')).reverse := by
            rw [← List.reverse_append, hsplit, List.reverse_reverse]
          rw [hs2, ← h1, ← h4]
          simp
        · intro c hc
          rw [← h4] at hc
          rw [List.mem_reverse] at hc
          have hnd := List.mem_takeWhile_imp hc
          have hns := (List.all_eq_true.mp hall) c hc
          simp only [Bool.not_eq_true', decide_eq_false_iff_not] at hnd hns
          simp [isExtChar, hnd, hns]
        · intro hnil
          rw [← h1] at hnil
          have hpe : preR = [] := by
            cases hpre : preR
            · rfl
            · rw [hpre] at hnil
              simp at hnil
          rw [hpe] at hany
          simp [List.takeWhile] at hany
      · injection h with h1 h2
        cases h2
    · injection h with h1 h2
      cases h2

/-- Well-formedness of a configured language table under which the general
theorems hold: every code is non-empty, made of characters legal inside an
extension segment (no dot, no slash) that the regex engine also reads as
plain literals (no metacharacter — the codes are spliced verbatim into the
compiled alternation), and no code is a prefix of another. -/
def langsWFb (alts : List String) : Bool :=
  alts.all (fun l =>
    !l.data.isEmpty && l.data.all (fun c => isExtChar c && isRegexLiteral c)) &&
  alts.all (fun a => alts.all (fun b => a == b || !(a.data.isPrefixOf b.data)))

theorem langsWFb_chars {alts : List String} (h : langsWFb alts = true) :
    ∀ a ∈ alts, ∀ c ∈ a.data, isExtChar c = true := by
  intro a ha c hc
  simp only [langsWFb, Bool.and_eq_true, List.all_eq_true] at h
  have h2 := h.1 a ha
  exact ((h2.2 c hc).1 : isExtChar c = true)

theorem langsWFb_ne {alts : List String} (h : langsWFb alts = true) :
    ∀ a ∈ alts, a.data ≠ [] := by
  intro a ha
  simp only [langsWFb, Bool.and_eq_true, List.all_eq_true] at h
  have h3 := (h.1 a ha).1
  intro hnil
  rw [hnil] at h3
  simp at h3

theorem langsWFb_pf {alts : List String} (h : langsWFb alts = true) :
    ∀ a ∈ alts, ∀ b ∈ alts, ¬ a = b → ¬ a.data <+: b.data := by
  intro a ha b hb hne hp
  simp only [langsWFb, Bool.and_eq_true, List.all_eq_true] at h
  have h2 := (h.2 a ha) b hb
  rw [Bool.or_eq_true] at h2
  rcases h2 with h3 | h3
  · exact hne (eq_of_beq h3)
  · rw [Bool.not_eq_true'] at h3
    rw [List.isPrefixOf_iff_prefix.mpr hp] at h3
    cases h3

/-- All three captured groups of any successful match are non-empty. -/
theorem allGroups_true {p : List Char} {l : String} {e : List Char}
    (hp : p ≠ []) (hl : l.data ≠ []) (he : e ≠ []) :
    allGroupsNonempty (p, l, e) = true := by
  simp only [allGroupsNonempty]
  cases p with
  | nil => exact absurd rfl hp
  | cons a b =>
    cases hld : l.data with
    | nil => exact absurd hld hl
    | cons a2 b2 =>
      cases e with
      | nil => exact absurd rfl he
      | cons a3 b3 => simp [hld]

/-- Under a well-formed language table, the translated-branch test failing
means the compiled regex did not match at all. -/
theorem reMatch_none_of_not_translated {cfg : TConfig} {path : String}
    (hwf : langsWFb cfg.TRANSLATIONS = true)
    (h : isTranslated cfg path = false) :
    reMatchGroups cfg path = none := by
  cases hm : reMatchGroups cfg path with
  | none => rfl
  | some g =>
    exfalso
    obtain ⟨p, l, e⟩ := g
    have hinv : l ∈ cfg.TRANSLATIONS ∧ e ≠ [] ∧ ∃ q, ¬ q = [] ∧ p = [] ++ q := by
      simp only [reMatchGroups] at hm
      cases hpat : cfg.TRANSLATIONS_PATTERN with
      | path_lang_ext =>
        rw [hpat] at hm
        exact scan1_some_inv cfg.TRANSLATIONS path.data [] p l e hm
      | path_ext_lang =>
        rw [hpat] at hm
        exact scan2_some_inv cfg.TRANSLATIONS path.data [] p l e hm
    obtain ⟨hmem, hene, q, hq, hpq⟩ := hinv
    have hpne : p ≠ [] := by
      rw [hpq, List.nil_append]
      exact hq
    have hall : allGroupsNonempty (p, l, e) = true :=
      allGroups_true hpne (langsWFb_ne hwf l hmem) hene
    simp only [isTranslated, hm, hall] at h
    cases h

/-- The function takes the untranslated branch (Case B) exactly when the
translated test fails. -/
theorem gtc_eq_caseB {cfg : TConfig} {path : String} (lang : String)
    (h : isTranslated cfg path = false) :
    get_translation_candidate cfg path lang = caseB_result cfg path lang := by
  cases hm : reMatchGroups cfg path with
  | none => simp [get_translation_candidate, hm]
  | some g =>
    have h2 : allGroupsNonempty g = false := by
      simp only [isTranslated, hm] at h
      exact h
    simp [get_translation_candidate, hm, h2]

/-- C2 (amended round-trip law): for a configuration of either documented
pattern shape whose language codes are non-empty, dot/slash-free, free of
regex metacharacters (they are spliced verbatim into the compiled
alternation) and mutually prefix-free, an untranslated path `stem.ext`
(Case B, non-empty extension body, stem free of newline) translated into a
non-default language L and then resolved back to the default language yields
the original path. -/
theorem round_trip_core (cfg : TConfig) (path L : String) (stem ed : List Char)
    (hwf : langsWFb cfg.TRANSLATIONS = true)
    (hL : L ∈ cfg.TRANSLATIONS) (hLd : ¬ L = cfg.DEFAULT_LANG)
    (hsplit : splitext path.data = (stem, '.' :: ed))
    (hede : ed ≠ [])
    (hstem : ∀ c ∈ stem, ¬ c = '\n')
    (hun : isTranslated cfg path = false) :
    get_translation_candidate cfg (get_translation_candidate cfg path L)
      cfg.DEFAULT_LANG = path := by
  obtain ⟨hpath, hedc, hane⟩ := splitext_recover hsplit
  have hinner : get_translation_candidate cfg path L =
      formatPattern cfg.TRANSLATIONS_PATTERN ⟨stem⟩ L ⟨ed⟩ := by
    rw [gtc_eq_caseB L hun]
    simp only [caseB_result, hsplit]
    rw [if_neg hLd]
    rfl
  rw [hinner]
  have hnone := reMatch_none_of_not_translated hwf hun
  have hchars := langsWFb_chars hwf
  have hpf : ∀ a ∈ cfg.TRANSLATIONS, ¬ a = L → ¬ a.data <+: L.data :=
    fun a ha hne => langsWFb_pf hwf a ha L hL hne
  have hLne : L.data ≠ [] := langsWFb_ne hwf L hL
  have hall : allGroupsNonempty (stem, L, ed) = true := allGroups_true hane hLne hede
  cases hpat : cfg.TRANSLATIONS_PATTERN with
  | path_lang_ext =>
    have hdata : (formatPattern TPattern.path_lang_ext (⟨stem⟩ : String) L
        (⟨ed⟩ : String)).data = stem ++ '.' :: (L.data ++ '.' :: ed) := by
      simp [formatPattern, String.data_append]
    have hshort : scan1 cfg.TRANSLATIONS [] (stem ++ '.' :: ed) = none := by
      have h0 := hnone
      simp only [reMatchGroups, hpat] at h0
      rw [hpath] at h0
      exact h0
    have hsc := scan1_splice cfg.TRANSLATIONS L ed hchars hedc hede hL hpf stem [] []
      hane hstem hshort
    rw [List.nil_append] at hsc
    simp only [get_translation_candidate, reMatchGroups, hpat, hdata, hsc, hall,
      if_true]
    rw [if_neg hLd]
    apply String.ext
    rw [hpath]
    simp [String.data_append]
  | path_ext_lang =>
    have hdata : (formatPattern TPattern.path_ext_lang (⟨stem⟩ : String) L
        (⟨ed⟩ : String)).data = stem ++ '.' :: (ed ++ '.' :: L.data) := by
      simp [formatPattern, String.data_append]
    have hshort : scan2 cfg.TRANSLATIONS [] (stem ++ '.' :: ed) = none := by
      have h0 := hnone
      simp only [reMatchGroups, hpat] at h0
      rw [hpath] at h0
      exact h0
    have hsc := scan2_splice cfg.TRANSLATIONS L ed hchars hedc hede hL hpf stem [] []
      hane hstem hshort
    rw [List.nil_append] at hsc
    simp only [get_translation_candidate, reMatchGroups, hpat, hdata, hsc, hall,
      if_true]
    rw [if_neg hLd]
    apply String.ext
    rw [hpath]
    simp [String.data_append]

/- ----------------------------------------------------------------------
Lemmas about the LocaleBorg state machine. -/

/-- States reachable after a successful initialization: the flag is up,
current_lang is a key of the table, and every locale in the table is
acceptable to the runtime. -/
def goodState (os : OS) (w : World) : Prop :=
  w.inited = some true ∧
  (∃ c loc, w.current_lang = some c ∧ w.locales.lookup c = some loc) ∧
  (∀ lang loc, w.locales.lookup lang = some loc → (os.encOf loc).isSome = true)

/-- The locale the loop leaves active, folded exactly like the loop: the last
entry's locale, or the given one when the table is empty. -/
def lastLocale (l : List (String × String)) (d : Option String) : Option String :=
  match l with
  | [] => d
  | p :: rest => lastLocale rest (some p.2)

theorem lastLocale_cons (lang loc : String) (rest : List (String × String))
    (d : Option String) :
    lastLocale ((lang, loc) :: rest) d = lastLocale rest (some loc) := rfl

/-- The encodings loop, fully described, when every locale is acceptable. -/
theorem initEncodings_spec (os : OS) :
    ∀ (l : List (String × String)) (w : World),
      (∀ p ∈ l, (os.encOf p.2).isSome = true) →
      ∃ w2, initEncodings os l w =
          .ok (l.map fun p => (p.1, (os.encOf p.2).getD none)) w2 ∧
        w2.locales = w.locales ∧ w2.encodings = w.encodings ∧
        w2.current_lang = w.current_lang ∧ w2.inited = w.inited ∧
        w2.processLocale = lastLocale l w.processLocale := by
  intro l
  induction l with
  | nil =>
    intro w _
    exact ⟨w, rfl, rfl, rfl, rfl, rfl, rfl⟩
  | cons p rest ih =>
    intro w hacc
    obtain ⟨lang, loc⟩ := p
    have hloc : (os.encOf loc).isSome = true :=
      hacc (lang, loc) (List.mem_cons_self _ _)
    obtain ⟨enc, henc⟩ := Option.isSome_iff_exists.mp hloc
    obtain ⟨w2, hrec, hl2, he2, hc2, hi2, hp2⟩ :=
      ih { w with processLocale := some loc }
        (fun q hq => hacc q (List.mem_cons_of_mem _ hq))
    refine ⟨w2, ?_, hl2, he2, hc2, hi2, ?_⟩
    · simp only [initEncodings, henc, hrec]
      simp [henc]
    · rw [hp2, lastLocale_cons]

/-- A successful loop means every listed locale was acceptable, and only the
process locale was touched. -/
theorem initEncodings_ok_inv (os : OS) :
    ∀ (l : List (String × String)) (w : World)
      (encs : List (String × Option String)) (w2 : World),
      initEncodings os l w = .ok encs w2 →
      w2.locales = w.locales ∧ ∀ p ∈ l, (os.encOf p.2).isSome = true := by
  intro l
  induction l with
  | nil =>
    intro w encs w2 h
    injection h with h1 h2
    refine ⟨by rw [← h2], ?_⟩
    intro p hp
    cases hp
  | cons p rest ih =>
    intro w encs w2 h
    obtain ⟨lang, loc⟩ := p
    simp only [initEncodings] at h
    cases henc : os.encOf loc with
    | none =>
      rw [henc] at h
      cases h
    | some enc =>
      rw [henc] at h
      cases hrec : initEncodings os rest { w with processLocale := some loc } with
      | ok encs2 w3 =>
        rw [hrec] at h
        injection h with h1 h2
        obtain ⟨hl, hall⟩ := ih _ _ _ hrec
        refine ⟨by rw [← h2]; exact hl, ?_⟩
        intro q hq
        rcases List.mem_cons.mp hq with h3 | h3
        · rw [h3]
          simp [henc]
        · exact hall q h3
      | err e w3 =>
        rw [hrec] at h
        cases h

/-- A lookup hit names a pair of the table. -/
theorem lookup_mem : ∀ (l : List (String × String)) (k v : String),
    l.lookup k = some v → (k, v) ∈ l := by
  intro l
  induction l with
  | nil =>
    intro k v h
    cases h
  | cons p rest ih =>
    intro k v h
    obtain ⟨a, b⟩ := p
    simp only [List.lookup] at h
    by_cases hk : (k == a) = true
    · rw [hk] at h
      injection h with h2
      rw [eq_of_beq hk, ← h2]
      exact List.mem_cons_self _ _
    · have hkf : (k == a) = false := by
        cases hv2 : (k == a)
        · rfl
        · exact absurd hv2 hk
      rw [hkf] at h
      exact List.mem_cons_of_mem _ (ih k v h)

/-- LocaleBorg.initialize fully described on acceptable input (the amended
C5): it succeeds, records an encoding per language, sets current_lang and the
flag — and leaves the process locale at the LAST language the loop visited,
not at the initial language's locale. -/
theorem init_spec (os : OS) (locales : List (String × String))
    (initial_lang : String) (w : World)
    (hin : (locales.lookup initial_lang).isSome = true)
    (hacc : ∀ p ∈ locales, (os.encOf p.2).isSome = true) :
    ∃ w2, LocaleBorg.init os locales initial_lang w = .ok () w2 ∧
      w2.current_lang = some initial_lang ∧
      w2.inited = some true ∧
      w2.locales = locales ∧
      w2.encodings = (locales.map fun p => (p.1, (os.encOf p.2).getD none)) ∧
      w2.processLocale = lastLocale locales w.processLocale := by
  obtain ⟨w2, hrun, hl2, he2, hc2, hi2, hp2⟩ :=
    initEncodings_spec os locales { LocaleBorg.reset w with locales := locales }
      hacc
  refine ⟨{ w2 with
      encodings := locales.map fun p => (p.1, (os.encOf p.2).getD none),
      current_lang := some initial_lang, inited := true }, ?_, rfl, rfl, ?_, rfl, ?_⟩
  · simp only [LocaleBorg.init, hin, if_true, hrun]
  · exact hl2
  · exact hp2

/-- Looking a key up in the built encodings table succeeds exactly when it
succeeds in the locale table. -/
theorem lookup_map_keys (f : String × String → Option String) :
    ∀ (l : List (String × String)) (k : String),
      ((l.map fun p => (p.1, f p)).lookup k).isSome = ((l.lookup k).isSome) := by
  intro l
  induction l with
  | nil =>
    intro k
    rfl
  | cons p rest ih =>
    intro k
    obtain ⟨a, b⟩ := p
    simp only [List.map_cons, List.lookup]
    by_cases hk : (k == a) = true
    · rw [hk]
      rfl
    · have hkf : (k == a) = false := by
        cases hv : (k == a)
        · rfl
        · exact absurd hv hk
      rw [hkf]
      exact ih k

/-- A successful initialization yields a goodState. -/
theorem init_goodState (os : OS) (locales : List (String × String))
    (initial_lang : String) (w w2 : World)
    (h : LocaleBorg.init os locales initial_lang w = .ok () w2) :
    goodState os w2 := by
  simp only [LocaleBorg.init] at h
  by_cases hin : (locales.lookup initial_lang).isSome = true
  · rw [if_pos hin] at h
    obtain ⟨loc0, hloc0⟩ := Option.isSome_iff_exists.mp hin
    cases hrun : initEncodings os locales
        { LocaleBorg.reset w with locales := locales } with
    | ok encs w3 =>
      rw [hrun] at h
      injection h with h1 h2
      obtain ⟨hl3, hall⟩ := initEncodings_ok_inv os locales _ encs w3 hrun
      have hl3b : w3.locales = locales := hl3
      subst h2
      refine ⟨rfl, ⟨initial_lang, loc0, rfl, ?_⟩, ?_⟩
      · show w3.locales.lookup initial_lang = some loc0
        rw [hl3b]
        exact hloc0
      · intro lang loc hlk
        have hlk2 : w3.locales.lookup lang = some loc := hlk
        rw [hl3b] at hlk2
        exact hall (lang, loc) (lookup_mem locales lang loc hlk2)
    | err e w3 =>
      rw [hrun] at h
      cases h
  · rw [if_neg hin] at h
    cases h

/-- C7: on any state reached by a successful initialize, set_locale raises
exactly when the language is not a key of the table — the lookup's KeyError
propagates with the state untouched, unwrapped (its error kind is keyError,
not a wrapper) — and for a key it sets current_lang, activates the language's
locale process-wide and returns the empty string. -/
theorem borg_set_locale_spec (os : OS) (w : World) (lang : String)
    (hg : goodState os w) :
    (w.locales.lookup lang = none →
      borg_set_locale os lang w = .err .keyError w) ∧
    (∀ ln, w.locales.lookup lang = some ln →
      borg_set_locale os lang w =
        .ok "" { w with current_lang := some lang, processLocale := some ln }) := by
  obtain ⟨hini, _, hacc⟩ := hg
  constructor
  · intro hnone
    simp [borg_set_locale, LocaleBorg.new, hini, Handle.call_set_locale,
      LocaleBorg.set_locale, hnone]
  · intro ln hsome
    obtain ⟨enc, henc⟩ := Option.isSome_iff_exists.mp (hacc lang ln hsome)
    simp [borg_set_locale, LocaleBorg.new, hini, Handle.call_set_locale,
      LocaleBorg.set_locale, hsome, henc]

/-- C3 (amended): on any state reached by a successful initialize, for a
listed language and a month number in 1..12, get_month_name returns the
localized month name for that language's locale, leaves current_lang
unchanged and — on this success path — restores the process-wide locale to
current_lang's locale.  (On the lookup-failure path the process locale is
only restored to its pre-call value by the context manager: see the
counterexample.) -/
theorem borg_get_month_name_spec (os : OS) (w : World) (m : Nat)
    (lang loc_n c loc_c : String)
    (hg : goodState os w)
    (hl : w.locales.lookup lang = some loc_n)
    (hc : w.current_lang = some c)
    (hcc : w.locales.lookup c = some loc_c)
    (hm1 : 1 ≤ m) (hm2 : m ≤ 12) :
    borg_get_month_name os m lang w =
      .ok (os.monthName loc_n m)
        { w with current_lang := some c, processLocale := some loc_c } := by
  obtain ⟨hini, _, hacc⟩ := hg
  obtain ⟨enc, henc⟩ := Option.isSome_iff_exists.mp (hacc lang loc_n hl)
  obtain ⟨encc, hencc⟩ := Option.isSome_iff_exists.mp (hacc c loc_c hcc)
  have hm0 : ¬ m = 0 := by
    intro h0
    rw [h0] at hm1
    cases hm1
  have hcal : calendarMonthName os loc_n m = some (os.monthName loc_n m) := by
    simp [calendarMonthName, hm0, hm2]
  simp [borg_get_month_name, LocaleBorg.new, hini, Handle.call_get_month_name,
    LocaleBorg.get_month_name, hl, henc, hcal, hc, LocaleBorg.set_locale, hcc,
    hencc]

/-- C4 (amended): while uninitialized every state access through a LocaleBorg
handle fails and never yields a default value — but with two different
errors.  After reset (flag exists and is False) the failure is the explicit
not-initialized Exception; before the first reset/initialize the `initialized`
attribute does not exist and the failure is an AttributeError from the flag
read itself.  Reset always leaves the flag existing and False (last
conjunct). -/
theorem borg_uninitialized_spec (os : OS) (w : World) (lang : String) (m : Nat)
    (h : ¬ w.inited = some true) :
    (w.inited = some false →
      borg_current_lang w = .err .notInitializedError w ∧
      borg_set_locale os lang w = .err .notInitializedError w ∧
      borg_get_month_name os m lang w = .err .notInitializedError w) ∧
    (w.inited = none →
      borg_current_lang w = .err .attributeError w ∧
      borg_set_locale os lang w = .err .attributeError w ∧
      borg_get_month_name os m lang w = .err .attributeError w) ∧
    (∀ e v, borg_current_lang w = .ok v e → False) ∧
    (LocaleBorg.reset w).inited = some false := by
  refine ⟨?_, ?_, ?_, rfl⟩
  · intro hf
    refine ⟨?_, ?_, ?_⟩
    · simp [borg_current_lang, LocaleBorg.new, hf]
    · simp [borg_set_locale, LocaleBorg.new, hf]
    · simp [borg_get_month_name, LocaleBorg.new, hf]
  · intro hf
    refine ⟨?_, ?_, ?_⟩
    · simp [borg_current_lang, LocaleBorg.new, hf]
    · simp [borg_set_locale, LocaleBorg.new, hf]
    · simp [borg_get_month_name, LocaleBorg.new, hf]
  · intro e v hok
    cases hi : w.inited with
    | none => simp [borg_current_lang, LocaleBorg.new, hi] at hok
    | some b =>
      cases b with
      | false => simp [borg_current_lang, LocaleBorg.new, hi] at hok
      | true => exact h hi

/-- C9 (Borg sharing): any two handles created after initialization view one
shared state — a set_locale performed through the first handle makes
current_lang read through the second handle equal that language. -/
theorem borg_shared_spec (os : OS) (w : World) (lang ln : String)
    (n1 n2 : Nat) (h1 h2 : Handle)
    (hmk1 : LocaleBorg.new n1 w = .ok h1 w)
    (hmk2 : LocaleBorg.new n2 w = .ok h2 w)
    (hl : w.locales.lookup lang = some ln)
    (he : (os.encOf ln).isSome = true) :
    ∃ w2, h1.call_set_locale os lang w = .ok "" w2 ∧
      h2.read_current_lang w2 = .ok (some lang) w2 := by
  obtain ⟨enc, henc⟩ := Option.isSome_iff_exists.mp he
  refine ⟨{ w with current_lang := some lang, processLocale := some ln }, ?_, rfl⟩
  simp [Handle.call_set_locale, LocaleBorg.set_locale, hl, henc]

/-- The concrete post-initialization state is a goodState of the test
runtime. -/
theorem goodState_w_init : goodState testOS w_init := by
  refine ⟨rfl, ⟨"en", "en_US.UTF-8", rfl, rfl⟩, ?_⟩
  intro lang loc h
  simp only [w_init, List.lookup] at h
  by_cases h1 : (lang == "en") = true
  · rw [h1] at h
    injection h with h2
    rw [← h2]
    rfl
  · have h1f : (lang == "en") = false := by
      cases hv : (lang == "en")
      · rfl
      · exact absurd hv h1
    rw [h1f] at h
    by_cases h2 : (lang == "fr") = true
    · rw [h2] at h
      injection h with h3
      rw [← h3]
      rfl
    · have h2f : (lang == "fr") = false := by
        cases hv : (lang == "fr")
        · rfl
        · exact absurd hv h2
      rw [h2f] at h
      cases h

/- ----------------------------------------------------------------------
The claims. -/

/-- C1: the documented input/output cases of get_translation_candidate, for
pattern "{path}.{lang}.{ext}" (adding a marker, keeping a matching marker,
stripping the marker for the default language) and for pattern
"{path}.{ext}.{lang}" likewise. -/
theorem doctest_cases :
    get_translation_candidate cfg1 "*.rst" "es" = "*.es.rst" ∧
    get_translation_candidate cfg1 "fancy.post.rst" "es" = "fancy.post.es.rst" ∧
    get_translation_candidate cfg1 "*.es.rst" "es" = "*.es.rst" ∧
    get_translation_candidate cfg1 "*.es.rst" "en" = "*.rst" ∧
    get_translation_candidate cfg2 "*.rst" "es" = "*.rst.es" ∧
    get_translation_candidate cfg2 "*.rst.es" "es" = "*.rst.es" ∧
    get_translation_candidate cfg2 "*.rst.es" "en" = "*.rst" := by
  decide

/-- C2 counterexample: the round-trip law fails as stated.  "a\nb.rst" is an
untranslated path with non-empty extension (Case B applies), but the regex
wildcard `.` refuses the newline, so the translated path "a\nb.es.rst" never
matches the compiled pattern and resolving it back to the default language
returns it unchanged instead of stripping the marker. -/
theorem round_trip_cex_newline :
    isTranslated cfg1 "a\nb.rst" = false ∧
    splitext ("a\nb.rst").data = (("a\nb").data, '.' :: ("rst").data) ∧
    get_translation_candidate cfg1
      (get_translation_candidate cfg1 "a\nb.rst" "es") "en" = "a\nb.es.rst" ∧
    ¬ get_translation_candidate cfg1
      (get_translation_candidate cfg1 "a\nb.rst" "es") "en" = "a\nb.rst" := by
  decide

/-- C2 witness instance of the amended round-trip law. -/
theorem round_trip_core_witness :
    get_translation_candidate cfg1
      (get_translation_candidate cfg1 "fancy.post.rst" "es") "en" =
      "fancy.post.rst" :=
  round_trip_core cfg1 "fancy.post.rst" "es" ("fancy.post").data ("rst").data
    (by decide) (by decide) (by decide) (by decide) (by decide) (by decide)
    (by decide)

/-- C3 counterexample: after initialize({'en': ..., 'fr': ...}, 'en') the
process locale is fr's (the loop's last).  get_month_name(13, 'fr') raises
IndexError; the context manager restores the pre-call locale (fr's), and the
restore-to-current_lang line is skipped (it is not in a finally), so the
process locale does NOT end at current_lang's locale as the claim demands;
current_lang itself is unchanged. -/
theorem month_name_cex_failure_leak :
    LocaleBorg.init testOS [("en", "en_US.UTF-8"), ("fr", "fr_FR.UTF-8")] "en"
      World.fresh = .ok () w_init ∧
    (borg_get_month_name testOS 13 "fr" w_init).errOf = some .indexError ∧
    (borg_get_month_name testOS 13 "fr" w_init).world.current_lang = some "en" ∧
    w_init.locales.lookup "en" = some "en_US.UTF-8" ∧
    (borg_get_month_name testOS 13 "fr" w_init).world.processLocale =
      some "fr_FR.UTF-8" ∧
    ¬ (borg_get_month_name testOS 13 "fr" w_init).world.processLocale =
      some "en_US.UTF-8" := by
  decide

/-- C3 witness instance of the amended success-path theorem. -/
theorem borg_get_month_name_spec_witness :
    borg_get_month_name testOS 1 "fr" w_init =
      .ok (testOS.monthName "fr_FR.UTF-8" 1)
        { w_init with current_lang := some "en",
                      processLocale := some "en_US.UTF-8" } :=
  borg_get_month_name_spec testOS w_init 1 "fr" "fr_FR.UTF-8" "en" "en_US.UTF-8"
    goodState_w_init rfl rfl rfl (by decide) (by decide)

/-- C4 counterexample: on the truly fresh world (no initialize, no reset ever
ran) a handle construction fails with AttributeError — the `initialized`
attribute does not exist yet — not with the explicit not-initialized error
the claim demands; the explicit error appears only once reset has created
the flag. -/
theorem uninitialized_cex_fresh_attribute :
    borg_current_lang World.fresh = .err .attributeError World.fresh ∧
    ¬ borg_current_lang World.fresh =
      .err .notInitializedError World.fresh ∧
    borg_current_lang (LocaleBorg.reset World.fresh) =
      .err .notInitializedError (LocaleBorg.reset World.fresh) := by
  decide

/-- C4 witness: the amended theorem applied to the post-reset world (explicit
not-initialized error) and to the fresh world (AttributeError); in both, no
access returns a value. -/
theorem borg_uninitialized_spec_witness :
    borg_current_lang (LocaleBorg.reset World.fresh) =
      .err .notInitializedError (LocaleBorg.reset World.fresh) ∧
    borg_set_locale testOS "en" (LocaleBorg.reset World.fresh) =
      .err .notInitializedError (LocaleBorg.reset World.fresh) ∧
    borg_get_month_name testOS 1 "en" (LocaleBorg.reset World.fresh) =
      .err .notInitializedError (LocaleBorg.reset World.fresh) ∧
    borg_current_lang World.fresh = .err .attributeError World.fresh ∧
    (∀ e v, borg_current_lang World.fresh = .ok v e → False) := by
  refine ⟨?_, ?_, ?_, ?_, ?_⟩
  · exact ((borg_uninitialized_spec testOS (LocaleBorg.reset World.fresh) "en" 1
      (by decide)).1 rfl).1
  · exact ((borg_uninitialized_spec testOS (LocaleBorg.reset World.fresh) "en" 1
      (by decide)).1 rfl).2.1
  · exact ((borg_uninitialized_spec testOS (LocaleBorg.reset World.fresh) "en" 1
      (by decide)).1 rfl).2.2
  · exact ((borg_uninitialized_spec testOS World.fresh "en" 1
      (by decide)).2.1 rfl).1
  · exact (borg_uninitialized_spec testOS World.fresh "en" 1
      (by decide)).2.2.1

/-- C5 (amended): initialize with a valid initial language and acceptable
locales succeeds, sets current_lang and the flag, records an encoding for
every language of the table — and leaves the process-wide locale at the
locale of the LAST language visited by the loop, which need not be the
initial language's. -/
theorem init_amended (os : OS) (locales : List (String × String))
    (initial_lang : String) (w : World)
    (hin : (locales.lookup initial_lang).isSome = true)
    (hacc : ∀ p ∈ locales, (os.encOf p.2).isSome = true) :
    ∃ w2, LocaleBorg.init os locales initial_lang w = .ok () w2 ∧
      w2.current_lang = some initial_lang ∧
      w2.inited = some true ∧
      (∀ lang, (locales.lookup lang).isSome = true →
        (w2.encodings.lookup lang).isSome = true) ∧
      w2.processLocale = lastLocale locales w.processLocale := by
  obtain ⟨w2, hrun, hc, hi, hloc, hencs, hp⟩ :=
    init_spec os locales initial_lang w hin hacc
  refine ⟨w2, hrun, hc, hi, ?_, hp⟩
  intro lang hl
  rw [hencs, lookup_map_keys (fun p => (os.encOf p.2).getD none) locales lang]
  exact hl

/-- C5 counterexample: the claim's "initial language's locale active" part is
false — after initializing with table order [en, fr] and initial language en,
the active process locale is fr's. -/
theorem init_cex_last_locale :
    LocaleBorg.init testOS [("en", "en_US.UTF-8"), ("fr", "fr_FR.UTF-8")] "en"
      World.fresh = .ok () w_init ∧
    w_init.current_lang = some "en" ∧
    w_init.locales.lookup "en" = some "en_US.UTF-8" ∧
    w_init.processLocale = some "fr_FR.UTF-8" ∧
    ¬ w_init.processLocale = some "en_US.UTF-8" := by
  decide

/-- C5 witness instance of the amended theorem. -/
theorem init_amended_witness :
    ∃ w2, LocaleBorg.init testOS [("en", "en_US.UTF-8"), ("fr", "fr_FR.UTF-8")]
        "en" World.fresh = .ok () w2 ∧
      w2.current_lang = some "en" ∧
      w2.inited = some true ∧
      (∀ lang,
        (([("en", "en_US.UTF-8"), ("fr", "fr_FR.UTF-8")] :
          List (String × String)).lookup lang).isSome = true →
        (w2.encodings.lookup lang).isSome = true) ∧
      w2.processLocale =
        lastLocale [("en", "en_US.UTF-8"), ("fr", "fr_FR.UTF-8")] none :=
  init_amended testOS [("en", "en_US.UTF-8"), ("fr", "fr_FR.UTF-8")] "en"
    World.fresh (by decide) (by decide)

/-- C6: initialize with an initial language that is not a key of the table
(including the empty table) raises the assertion error before mutating
anything: the err result carries the input world unchanged. -/
theorem init_rejects_absent_initial (os : OS) (locales : List (String × String))
    (initial_lang : String) (w : World)
    (h : (locales.lookup initial_lang).isSome = false) :
    LocaleBorg.init os locales initial_lang w = .err .assertionError w := by
  simp [LocaleBorg.init, h]

/-- C6 witness: the spec's own example, initialize({}, "en"). -/
theorem init_rejects_absent_initial_witness :
    LocaleBorg.init testOS [] "en" World.fresh =
      .err .assertionError World.fresh :=
  init_rejects_absent_initial testOS [] "en" World.fresh (by decide)

/-- C7 witness: set_locale of a listed language on the initialized state. -/
theorem borg_set_locale_spec_witness :
    borg_set_locale testOS "fr" w_init =
      .ok "" { w_init with current_lang := some "fr",
                           processLocale := some "fr_FR.UTF-8" } :=
  (borg_set_locale_spec testOS w_init "fr" goodState_w_init).2 "fr_FR.UTF-8" rfl

/-- C8: for every configuration (of one of the two documented pattern
shapes), every path and every target language — in particular a target
language or path marker outside the configured set — the function is total
and, whenever the translated-branch test fails, returns exactly the Case B
fallback. -/
theorem untranslated_fallback (cfg : TConfig) (path lang : String)
    (h : isTranslated cfg path = false) :
    get_translation_candidate cfg path lang = caseB_result cfg path lang :=
  gtc_eq_caseB lang h

/-- C8 witness: marker "fr" and target "fr" are not configured; the input is
resolved by Case B rather than by an error. -/
theorem untranslated_fallback_witness :
    isTranslated cfg1 "*.fr.rst" = false ∧
    get_translation_candidate cfg1 "*.fr.rst" "fr" =
      caseB_result cfg1 "*.fr.rst" "fr" :=
  ⟨by decide, untranslated_fallback cfg1 "*.fr.rst" "fr" (by decide)⟩

/-- C9 witness: two distinct handles on the initialized state; a set through
the first is read back through the second. -/
theorem borg_shared_spec_witness :
    ∃ w2, Handle.call_set_locale ⟨0⟩ testOS "fr" w_init = .ok "" w2 ∧
      Handle.read_current_lang ⟨1⟩ w2 = .ok (some "fr") w2 :=
  borg_shared_spec testOS w_init "fr" "fr_FR.UTF-8" 0 1 ⟨0⟩ ⟨1⟩ rfl rfl rfl rfl

/-- C10: the compiled pattern is matched anchored only at the start, so
"a.es.rst.txt" under "{path}.{lang}.{ext}" takes the translated branch with
captures (a, es, rst), and resolving toward a different language rebuilds the
result from the captures alone — the trailing ".txt" is dropped. -/
theorem trailing_chars_dropped :
    isTranslated cfg1 "a.es.rst.txt" = true ∧
    get_translation_candidate cfg1 "a.es.rst.txt" "en" = "a.rst" := by
  decide

end NikolaUtils
